import Mathlib

/-!
Shallow embedding of the menu-tree core (`cursive-core/src/menu.rs`).

A `Tree` owns an ordered list of `Item` children.  A `Subtree` item stores an
`Rc<Tree>`; we model the reference-counted heap explicitly as a `Store` of
cells (strong count + tree content) indexed by `Handle`, so that sharing,
`Rc::clone`, and the copy-on-write `Rc::make_mut` are observable.  Mutable
references returned into the heap are modelled as handles; writing through
such a reference is `Store.setTree`.  `Vec::insert` / `Vec::remove` panics are
modelled as `none`.
-/

namespace Menu

/-- Opaque action handle stored in a leaf (the source's `event::Callback`).
The core stores it and never inspects it, so an abstract identifier keeps the
embedding faithful. -/
structure Callback where
  id : Nat
deriving DecidableEq, Repr

/-- Index of a reference-counted cell in the store; models a value of type
`Rc<Tree>` by the allocation it points to. -/
abbrev Handle := Nat

/-- Node in the menu tree (the source's `enum Item`).  A `Subtree` holds a
handle into the reference-counted store, modelling its `Rc<Tree>` field. -/
inductive Item where
  | Leaf (label : String) (cb : Callback) (enabled : Bool)
  | Subtree (label : String) (tree : Handle) (enabled : Bool)
  | Delimiter
deriving DecidableEq, Repr

/-- Root of a menu tree (the source's `struct Tree`): the ordered `children`
vector. -/
structure Tree where
  children : List Item
deriving DecidableEq, Repr

/-- One reference-counted allocation: its strong count and the tree content. -/
structure Cell where
  rc : Nat
  tree : Tree
deriving DecidableEq, Repr

/-- Heap of `Rc<Tree>` allocations; a `Handle` indexes into `cells`. -/
structure Store where
  cells : List Cell
deriving DecidableEq, Repr

/-- Apply `f` to the element at index `i`, leaving the list unchanged when the
index is out of range. -/
def listModify {α : Type} (f : α → α) : Nat → List α → List α
  | _, [] => []
  | 0, a :: as => f a :: as
  | n + 1, a :: as => a :: listModify f n as

/-- Strong reference count of handle `h` (0 for a dangling handle). -/
def Store.count (s : Store) (h : Handle) : Nat :=
  (s.cells[h]?.map Cell.rc).getD 0

/-- Tree content stored at handle `h` (the empty tree for a dangling handle). -/
def Store.treeAt (s : Store) (h : Handle) : Tree :=
  (s.cells[h]?.map Cell.tree).getD ⟨[]⟩

/-- Model of `Rc::new`: allocate a fresh cell with count 1 and return its
handle. -/
def Store.alloc (s : Store) (t : Tree) : Store × Handle :=
  (⟨s.cells ++ [⟨1, t⟩]⟩, s.cells.length)

/-- Model of `Rc::clone`: increment the strong count of `h`. -/
def Store.incr (s : Store) (h : Handle) : Store :=
  ⟨listModify (fun c => ⟨c.rc + 1, c.tree⟩) h s.cells⟩

/-- Model of dropping one `Rc` pointing at `h`: decrement the strong count. -/
def Store.decr (s : Store) (h : Handle) : Store :=
  ⟨listModify (fun c => ⟨c.rc - 1, c.tree⟩) h s.cells⟩

/-- Writing a new tree through a mutable reference into the cell at `h`. -/
def Store.setTree (s : Store) (h : Handle) (t : Tree) : Store :=
  ⟨listModify (fun c => ⟨c.rc, t⟩) h s.cells⟩

/-- Store effect of `Item::clone` (from `#[derive(Clone)]`): cloning a
`Subtree` clones its `Rc`, incrementing that handle's count; the other
variants copy plain values. -/
def Item.cloneIncr (s : Store) : Item → Store
  | Item.Subtree _ h _ => s.incr h
  | _ => s

/-- Store effect of `Tree::clone` (from `#[derive(Clone)]`): the `Vec` clone
clones every child item in order. -/
def Tree.cloneIncr (s : Store) (t : Tree) : Store :=
  t.children.foldl Item.cloneIncr s

/-- Model of `Rc::make_mut`: when `h` is not uniquely owned, clone the content
into a fresh cell (the clone increments the counts of directly nested shared
subtrees), drop this owner's old reference, and return the fresh handle;
otherwise return `h` itself with the store untouched. -/
def Store.makeMut (s : Store) (h : Handle) : Store × Handle :=
  if s.count h = 1 then (s, h)
  else
    let t := s.treeAt h
    let s1 := Tree.cloneIncr s t
    let p := s1.alloc t
    (p.1.decr h, p.2)

/-- Source `Item::leaf`: an enabled leaf. -/
def Item.leaf (label : String) (cb : Callback) : Item :=
  Item.Leaf label cb true

/-- Source `Item::subtree`: wraps the tree in a fresh `Rc`, enabled. -/
def Item.subtree (s : Store) (label : String) (t : Tree) : Store × Item :=
  let p := s.alloc t
  (p.1, Item.Subtree label p.2 true)

/-- Source `Item::label`: the stored label, or the vertical-bar glyph for a
delimiter. -/
def Item.label : Item → String
  | Item.Delimiter => "│"
  | Item.Leaf label _ _ => label
  | Item.Subtree label _ _ => label

/-- Source `Item::is_enabled`: the `enabled` flag for leaves and subtrees,
`false` for delimiters. -/
def Item.is_enabled : Item → Bool
  | Item.Leaf _ _ enabled => enabled
  | Item.Subtree _ _ enabled => enabled
  | Item.Delimiter => false

/-- Source `Item::disable`: clear the `enabled` flag on a leaf or subtree;
delimiters are unaffected. -/
def Item.disable : Item → Item
  | Item.Leaf label cb _ => Item.Leaf label cb false
  | Item.Subtree label h _ => Item.Subtree label h false
  | Item.Delimiter => Item.Delimiter

/-- Source `Item::disabled`, the consuming variant (`self.with(Self::disable)`). -/
def Item.disabled (it : Item) : Item :=
  it.disable

/-- Source `Item::is_delimiter`. -/
def Item.is_delimiter : Item → Bool
  | Item.Delimiter => true
  | _ => false

/-- Source `Item::is_leaf`. -/
def Item.is_leaf : Item → Bool
  | Item.Leaf _ _ _ => true
  | _ => false

/-- Source `Item::is_subtree`. -/
def Item.is_subtree : Item → Bool
  | Item.Subtree _ _ _ => true
  | _ => false

/-- Source `Item::as_subtree`: on a `Subtree`, `Rc::make_mut` on its handle
(copy-on-write fork when shared) rebinds the item to the resulting handle and
returns that handle, which models the returned `&mut Tree`; on any other item
it returns `none` and changes nothing. -/
def Item.as_subtree (s : Store) : Item → Store × Item × Option Handle
  | Item.Subtree label h enabled =>
    let p := Store.makeMut s h
    (p.1, Item.Subtree label p.2 enabled, some p.2)
  | it => (s, it, none)

/-- Source `Tree::new`: the empty tree. -/
def Tree.new : Tree := ⟨[]⟩

/-- Source `Tree::insert` (`Vec::insert`): panics when `i > len`; the panic is
`none`, success is `some` of the updated tree (only the children vector is
touched at these lines). -/
def Tree.insert (t : Tree) (i : Nat) (item : Item) : Option Tree :=
  if i ≤ t.children.length then some ⟨List.insertIdx i item t.children⟩ else none

/-- Source `Tree::remove` (`Vec::remove`): panics when `i ≥ len`. -/
def Tree.remove (t : Tree) (i : Nat) : Option Tree :=
  if i < t.children.length then some ⟨t.children.eraseIdx i⟩ else none

/-- Source `Tree::insert_delimiter`: `insert(i, Item::Delimiter)`. -/
def Tree.insert_delimiter (t : Tree) (i : Nat) : Option Tree :=
  t.insert i Item.Delimiter

/-- Source `Tree::add_delimiter`: `insert_delimiter` at `i = len`, which never
panics, so the `getD` default is dead. -/
def Tree.add_delimiter (t : Tree) : Tree :=
  (t.insert_delimiter t.children.length).getD t

/-- Source `Tree::delimiter`, the chainable variant
(`self.with(Self::add_delimiter)`). -/
def Tree.delimiter (t : Tree) : Tree :=
  t.add_delimiter

/-- Source `Tree::insert_leaf`: insert an enabled leaf at `i`. -/
def Tree.insert_leaf (t : Tree) (i : Nat) (label : String) (cb : Callback) : Option Tree :=
  t.insert i (Item.Leaf label cb true)

/-- Source `Tree::add_leaf`: `insert_leaf` at `i = len` (never panics). -/
def Tree.add_leaf (t : Tree) (label : String) (cb : Callback) : Tree :=
  (t.insert_leaf t.children.length label cb).getD t

/-- Source `Tree::leaf`, the chainable variant. -/
def Tree.leaf (t : Tree) (label : String) (cb : Callback) : Tree :=
  t.add_leaf label cb

/-- Source `Tree::insert_subtree`: wrap the subtree in a fresh `Rc` and insert
the resulting item at `i`. -/
def Tree.insert_subtree (s : Store) (t : Tree) (i : Nat) (label : String) (sub : Tree) :
    Store × Option Tree :=
  let p := s.alloc sub
  (p.1, t.insert i (Item.Subtree label p.2 true))

/-- Source `Tree::add_item`: `insert` at `i = len` (never panics). -/
def Tree.add_item (t : Tree) (it : Item) : Tree :=
  (t.insert t.children.length it).getD t

/-- Source `Tree::item`, the chainable variant of `add_item`. -/
def Tree.item (t : Tree) (it : Item) : Tree :=
  t.add_item it

/-- Source `Tree::add_subtree`: `insert_subtree` at `i = len` (never panics). -/
def Tree.add_subtree (s : Store) (t : Tree) (label : String) (sub : Tree) : Store × Tree :=
  let p := Tree.insert_subtree s t t.children.length label sub
  (p.1, p.2.getD t)

/-- Source `Tree::subtree`, the chainable variant of `add_subtree`. -/
def Tree.subtree (s : Store) (t : Tree) (label : String) (sub : Tree) : Store × Tree :=
  Tree.add_subtree s t label sub

/-- Source `Tree::get_mut`: the child at position `i`, `None` when `i ≥ len`. -/
def Tree.get_mut (t : Tree) (i : Nat) : Option Item :=
  t.children[i]?

/-- Source `Tree::get_subtree`: `get_mut(i).and_then(Item::as_subtree)`; the
rebinding `as_subtree` performs on the item happens through the mutable
reference into slot `i`, hence the `set`. -/
def Tree.get_subtree (s : Store) (t : Tree) (i : Nat) : Store × Tree × Option Handle :=
  match t.children[i]? with
  | none => (s, t, none)
  | some it =>
    let p := Item.as_subtree s it
    (p.1, ⟨t.children.set i p.2.1⟩, p.2.2)

/-- Source `Tree::find_item`: first child whose `label()` equals `label`. -/
def Tree.find_item (t : Tree) (label : String) : Option Item :=
  t.children.find? fun child => child.label == label

/-- Recursion behind `Tree::find_subtree`
(`iter_mut().filter(label matches).find_map(Item::as_subtree)`): walk the
children in order; on each child whose `label()` matches, try `as_subtree`
(which forks a shared subtree) and stop at the first success, keeping every
rebinding performed along the way. -/
def findSubtreeAux (s : Store) (label : String) : List Item → Store × List Item × Option Handle
  | [] => (s, [], none)
  | c :: cs =>
    if c.label == label then
      match Item.as_subtree s c with
      | (s1, c1, some hd) => (s1, c1 :: cs, some hd)
      | (s1, c1, none) =>
        let p := findSubtreeAux s1 label cs
        (p.1, c1 :: p.2.1, p.2.2)
    else
      let p := findSubtreeAux s label cs
      (p.1, c :: p.2.1, p.2.2)

/-- Source `Tree::find_subtree`: among label-matching children, the first that
is actually a subtree, accessed through `as_subtree` (copy-on-write fork). -/
def Tree.find_subtree (s : Store) (t : Tree) (label : String) : Store × Tree × Option Handle :=
  let p := findSubtreeAux s label t.children
  (p.1, ⟨p.2.1⟩, p.2.2)

/-- Source `Tree::find_position`: index of the first child whose `label()`
matches. -/
def Tree.find_position (t : Tree) (label : String) : Option Nat :=
  t.children.findIdx? fun child => child.label == label

/-- Source `Tree::len`: number of direct children, delimiters included. -/
def Tree.len (t : Tree) : Nat :=
  t.children.length

/-- Source `Tree::is_empty`. -/
def Tree.is_empty (t : Tree) : Bool :=
  t.children.isEmpty

/-- One append call in a build sequence, as in the spec's testable property
about `add_leaf` / `add_subtree` / `add_delimiter` sequences. -/
inductive AddCall where
  | leafC (label : String) (cb : Callback)
  | subtreeC (label : String) (sub : Tree)
  | delimC
deriving DecidableEq, Repr

/-- Run one append call against the store and tree. -/
def applyAdd (st : Store × Tree) : AddCall → Store × Tree
  | AddCall.leafC label cb => (st.1, st.2.add_leaf label cb)
  | AddCall.subtreeC label sub => Tree.add_subtree st.1 st.2 label sub
  | AddCall.delimC => (st.1, st.2.add_delimiter)

/-- Run a sequence of append calls in order. -/
def applyAdds (st : Store × Tree) (cs : List AddCall) : Store × Tree :=
  cs.foldl applyAdd st

/-- The item an append call records: same kind, same label, same callback,
enabled — the handle of a subtree item is left free, since allocation assigns
it from the store state at call time. -/
def MatchesCall : AddCall → Item → Prop
  | AddCall.leafC label cb, Item.Leaf l c e => l = label ∧ c = cb ∧ e = true
  | AddCall.subtreeC label _, Item.Subtree l _ e => l = label ∧ e = true
  | AddCall.delimC, Item.Delimiter => True
  | _, _ => False

/-! Basic lemmas about `listModify` and list `set`. -/

theorem listModify_length {α : Type} (f : α → α) (i : Nat) (l : List α) :
    (listModify f i l).length = l.length := by
  induction l generalizing i with
  | nil => simp [listModify]
  | cons a as ih => cases i <;> simp [listModify, ih]

theorem listModify_getElem?_self {α : Type} (f : α → α) (i : Nat) (l : List α) :
    (listModify f i l)[i]? = l[i]?.map f := by
  induction l generalizing i with
  | nil => simp [listModify]
  | cons a as ih => cases i <;> simp [listModify, ih]

theorem listModify_getElem?_ne {α : Type} (f : α → α) (i j : Nat) (l : List α) (hij : i ≠ j) :
    (listModify f i l)[j]? = l[j]? := by
  induction l generalizing i j with
  | nil => simp [listModify]
  | cons a as ih =>
    cases i with
    | zero =>
      cases j with
      | zero => exact absurd rfl hij
      | succ j => simp [listModify]
    | succ i =>
      cases j with
      | zero => simp [listModify]
      | succ j => simpa [listModify] using ih i j (by omega)

theorem set_getElem?_self {α : Type} (l : List α) (i : Nat) (a : α) (h : l[i]? = some a) :
    l.set i a = l := by
  induction l generalizing i with
  | nil => rfl
  | cons b bs ih =>
    cases i with
    | zero => simp_all
    | succ i =>
      simp only [List.getElem?_cons_succ] at h
      simp [ih _ h]

/-! Frame lemmas for the store operations. -/

theorem Store.length_incr (s : Store) (h : Handle) :
    (s.incr h).cells.length = s.cells.length :=
  listModify_length _ _ _

theorem Store.length_decr (s : Store) (h : Handle) :
    (s.decr h).cells.length = s.cells.length :=
  listModify_length _ _ _

theorem Store.length_setTree (s : Store) (h : Handle) (t : Tree) :
    (s.setTree h t).cells.length = s.cells.length :=
  listModify_length _ _ _

theorem Store.treeAt_incr (s : Store) (h h2 : Handle) :
    (s.incr h).treeAt h2 = s.treeAt h2 := by
  unfold Store.incr Store.treeAt
  rcases eq_or_ne h h2 with rfl | hne
  · rw [listModify_getElem?_self]
    cases s.cells[h]? <;> rfl
  · rw [listModify_getElem?_ne _ _ _ _ hne]

theorem Store.treeAt_decr (s : Store) (h h2 : Handle) :
    (s.decr h).treeAt h2 = s.treeAt h2 := by
  unfold Store.decr Store.treeAt
  rcases eq_or_ne h h2 with rfl | hne
  · rw [listModify_getElem?_self]
    cases s.cells[h]? <;> rfl
  · rw [listModify_getElem?_ne _ _ _ _ hne]

theorem Store.treeAt_setTree_ne (s : Store) (h h2 : Handle) (t : Tree) (hne : h ≠ h2) :
    (s.setTree h t).treeAt h2 = s.treeAt h2 := by
  unfold Store.setTree Store.treeAt
  rw [listModify_getElem?_ne _ _ _ _ hne]

theorem Store.treeAt_setTree_self (s : Store) (h : Handle) (t : Tree)
    (hlt : h < s.cells.length) : (s.setTree h t).treeAt h = t := by
  unfold Store.setTree Store.treeAt
  rw [listModify_getElem?_self]
  obtain ⟨c, hc⟩ : ∃ c, s.cells[h]? = some c := by
    rw [List.getElem?_eq_getElem hlt]
    exact ⟨_, rfl⟩
  simp [hc]

theorem Store.treeAt_alloc_old (s : Store) (t : Tree) (h : Handle)
    (hlt : h < s.cells.length) : (s.alloc t).1.treeAt h = s.treeAt h := by
  unfold Store.alloc Store.treeAt
  simp [List.getElem?_append, hlt]

theorem Store.treeAt_alloc_new (s : Store) (t : Tree) :
    (s.alloc t).1.treeAt s.cells.length = t := by
  unfold Store.alloc Store.treeAt
  simp [List.getElem?_concat_length]

theorem Store.lt_length_of_count_pos (s : Store) (h : Handle) (hc : 0 < s.count h) :
    h < s.cells.length := by
  rcases Nat.lt_or_ge h s.cells.length with hlt | hge
  · exact hlt
  · have hnone : s.cells[h]? = none := List.getElem?_eq_none hge
    simp [Store.count, hnone] at hc

/-! The store effect of cloning a tree only touches reference counts. -/

theorem foldl_cloneIncr_treeAt (l : List Item) :
    ∀ (s : Store) (h : Handle), (l.foldl Item.cloneIncr s).treeAt h = s.treeAt h := by
  induction l with
  | nil => intro s h; rfl
  | cons c cs ih =>
    intro s h
    rw [List.foldl_cons, ih]
    cases c <;> simp [Item.cloneIncr, Store.treeAt_incr]

theorem foldl_cloneIncr_length (l : List Item) :
    ∀ s : Store, (l.foldl Item.cloneIncr s).cells.length = s.cells.length := by
  induction l with
  | nil => intro s; rfl
  | cons c cs ih =>
    intro s
    rw [List.foldl_cons, ih]
    cases c <;> simp [Item.cloneIncr, Store.length_incr]

theorem Tree.cloneIncr_treeAt (s : Store) (t : Tree) (h : Handle) :
    (Tree.cloneIncr s t).treeAt h = s.treeAt h :=
  foldl_cloneIncr_treeAt t.children s h

theorem Tree.cloneIncr_length (s : Store) (t : Tree) :
    (Tree.cloneIncr s t).cells.length = s.cells.length :=
  foldl_cloneIncr_length t.children s

/-! Behaviour of `Rc::make_mut` in the two ownership regimes. -/

theorem Store.makeMut_unique (s : Store) (h : Handle) (hc : s.count h = 1) :
    s.makeMut h = (s, h) := by
  simp [Store.makeMut, hc]

theorem Store.makeMut_shared (s : Store) (h : Handle) (hc : s.count h ≠ 1)
    (hlt : h < s.cells.length) :
    (s.makeMut h).2 = s.cells.length ∧
    (s.makeMut h).1.cells.length = s.cells.length + 1 ∧
    (s.makeMut h).1.treeAt h = s.treeAt h ∧
    (s.makeMut h).1.treeAt s.cells.length = s.treeAt h := by
  simp only [Store.makeMut, if_neg hc]
  refine ⟨Tree.cloneIncr_length s _, ?_, ?_, ?_⟩
  · simp [Store.length_decr, Store.alloc, Tree.cloneIncr_length]
  · rw [Store.treeAt_decr, Store.treeAt_alloc_old, Tree.cloneIncr_treeAt]
    rw [Tree.cloneIncr_length]
    exact hlt
  · rw [Store.treeAt_decr]
    have hlen : (Tree.cloneIncr s (s.treeAt h)).cells.length = s.cells.length :=
      Tree.cloneIncr_length s _
    rw [← hlen, Store.treeAt_alloc_new]

/-! Appending is inserting at the length, which never panics. -/

theorem Tree.insert_len (t : Tree) (it : Item) :
    t.insert t.children.length it = some ⟨t.children ++ [it]⟩ := by
  simp [Tree.insert, List.insertIdx_length_self]

theorem Tree.add_item_eq (t : Tree) (it : Item) :
    t.add_item it = ⟨t.children ++ [it]⟩ := by
  rw [Tree.add_item, Tree.insert_len]
  rfl

theorem Tree.add_leaf_eq (t : Tree) (lbl : String) (cb : Callback) :
    t.add_leaf lbl cb = ⟨t.children ++ [Item.Leaf lbl cb true]⟩ := by
  rw [Tree.add_leaf, Tree.insert_leaf, Tree.insert_len]
  rfl

theorem Tree.add_delimiter_eq (t : Tree) :
    t.add_delimiter = ⟨t.children ++ [Item.Delimiter]⟩ := by
  rw [Tree.add_delimiter, Tree.insert_delimiter, Tree.insert_len]
  rfl

theorem Tree.add_subtree_eq (s : Store) (t : Tree) (lbl : String) (sub : Tree) :
    Tree.add_subtree s t lbl sub =
      ((s.alloc sub).1, ⟨t.children ++ [Item.Subtree lbl s.cells.length true]⟩) := by
  rw [Tree.add_subtree, Tree.insert_subtree]
  show ((s.alloc sub).1,
    (t.insert t.children.length (Item.Subtree lbl (s.alloc sub).2 true)).getD t) = _
  rw [Tree.insert_len]
  rfl

/-! Case analysis on `as_subtree`. -/

theorem Item.as_subtree_of_not_subtree (s : Store) (it : Item) (h : it.is_subtree = false) :
    Item.as_subtree s it = (s, it, none) := by
  cases it <;> simp_all [Item.is_subtree, Item.as_subtree]

theorem Item.as_subtree_subtree (s : Store) (lbl : String) (h : Handle) (en : Bool) :
    Item.as_subtree s (Item.Subtree lbl h en) =
      ((s.makeMut h).1, Item.Subtree lbl (s.makeMut h).2 en, some (s.makeMut h).2) :=
  rfl

/-! First-match characterizations of `List.findIdx?` and its link to `find?`. -/

theorem findIdx?_first {α : Type} (p : α → Bool) (l : List α) (j : Nat) (c : α)
    (hj : l[j]? = some c) (hc : p c = true)
    (hmin : ∀ k, k < j → ∀ c2, l[k]? = some c2 → p c2 = false) :
    l.findIdx? p = some j := by
  induction l generalizing j with
  | nil => simp at hj
  | cons a as ih =>
    cases j with
    | zero =>
      simp only [List.getElem?_cons_zero, Option.some.injEq] at hj
      subst hj
      simp [List.findIdx?_cons, hc]
    | succ j =>
      have ha : p a = false := hmin 0 (Nat.succ_pos j) a (by simp)
      rw [List.findIdx?_cons, if_neg (by simp [ha]), List.findIdx?_succ]
      have hrec : as.findIdx? p = some j := by
        refine ih j (by simpa using hj) ?_
        intro k hk c2 h2
        exact hmin (k + 1) (by omega) c2 (by simpa using h2)
      rw [hrec]
      rfl

theorem findIdx?_some_first {α : Type} (p : α → Bool) (l : List α) (j : Nat)
    (h : l.findIdx? p = some j) :
    ∃ c, l[j]? = some c ∧ p c = true ∧
      ∀ k, k < j → ∀ c2, l[k]? = some c2 → p c2 = false := by
  induction l generalizing j with
  | nil => simp [List.findIdx?] at h
  | cons a as ih =>
    rw [List.findIdx?_cons] at h
    by_cases ha : p a = true
    · rw [if_pos ha] at h
      obtain rfl : (0 : Nat) = j := by injection h
      exact ⟨a, by simp, ha, fun k hk => absurd hk (by omega)⟩
    · have ha' : p a = false := by simpa using ha
      rw [if_neg ha, List.findIdx?_succ] at h
      cases has : as.findIdx? p with
      | none => rw [has] at h; simp at h
      | some j0 =>
        rw [has] at h
        simp only [Option.map_some', Option.some.injEq] at h
        subst h
        obtain ⟨c, hc1, hc2, hmin⟩ := ih j0 has
        refine ⟨c, by simpa using hc1, hc2, ?_⟩
        intro k hk c2 h2
        cases k with
        | zero =>
          simp only [List.getElem?_cons_zero, Option.some.injEq] at h2
          subst h2
          exact ha'
        | succ k => exact hmin k (by omega) c2 (by simpa using h2)

theorem find?_eq_findIdx?_bind {α : Type} (p : α → Bool) (l : List α) :
    l.find? p = (l.findIdx? p).bind fun j => l[j]? := by
  induction l with
  | nil => rfl
  | cons a as ih =>
    rw [List.find?_cons, List.findIdx?_cons]
    by_cases ha : p a = true
    · simp [ha]
    · have ha' : p a = false := by simpa using ha
      rw [if_neg ha, List.findIdx?_succ, ha', ih]
      cases as.findIdx? p <;> simp

/-! Behaviour of the traversal behind `find_subtree`. -/

theorem findSubtreeAux_miss (s : Store) (lbl : String) (l : List Item)
    (hmiss : ∀ c ∈ l, ¬(c.label = lbl ∧ c.is_subtree = true)) :
    findSubtreeAux s lbl l = (s, l, none) := by
  induction l generalizing s with
  | nil => rfl
  | cons c cs ih =>
    have hcs : ∀ c2 ∈ cs, ¬(c2.label = lbl ∧ c2.is_subtree = true) := fun c2 h2 =>
      hmiss c2 (by simp [h2])
    by_cases hl : (c.label == lbl) = true
    · have hl' : c.label = lbl := by simpa using hl
      have hns : c.is_subtree = false := by
        cases hsub : c.is_subtree
        · rfl
        · exact absurd ⟨hl', hsub⟩ (hmiss c (by simp))
      rw [findSubtreeAux, if_pos hl, Item.as_subtree_of_not_subtree s c hns]
      simp [ih s hcs]
    · rw [findSubtreeAux, if_neg hl]
      simp [ih s hcs]

theorem findSubtreeAux_hit (s : Store) (lbl : String) (l : List Item) (j : Nat) (c : Item)
    (hj : l[j]? = some c) (hc : c.label = lbl) (hsub : c.is_subtree = true)
    (hmin : ∀ k, k < j → ∀ c2, l[k]? = some c2 → ¬(c2.label = lbl ∧ c2.is_subtree = true)) :
    findSubtreeAux s lbl l =
      ((Item.as_subtree s c).1, l.set j (Item.as_subtree s c).2.1,
        (Item.as_subtree s c).2.2) := by
  induction l generalizing j s with
  | nil => simp at hj
  | cons a cs ih =>
    cases j with
    | zero =>
      simp only [List.getElem?_cons_zero, Option.some.injEq] at hj
      subst hj
      obtain ⟨l2, h2, en, rfl⟩ : ∃ l2 h2 en, a = Item.Subtree l2 h2 en := by
        cases a <;> simp_all [Item.is_subtree]
      rw [findSubtreeAux, if_pos (by simpa using hc)]
      rw [Item.as_subtree_subtree]
      rfl
    | succ j =>
      have hj' : cs[j]? = some c := by simpa using hj
      have hmin' : ∀ k, k < j → ∀ c2, cs[k]? = some c2 →
          ¬(c2.label = lbl ∧ c2.is_subtree = true) := fun k hk c2 hk2 =>
        hmin (k + 1) (by omega) c2 (by simpa using hk2)
      have hna := hmin 0 (Nat.succ_pos j) a (by simp)
      by_cases hl : (a.label == lbl) = true
      · have hl' : a.label = lbl := by simpa using hl
        have hns : a.is_subtree = false := by
          cases hsub2 : a.is_subtree
          · rfl
          · exact absurd ⟨hl', hsub2⟩ hna
        rw [findSubtreeAux, if_pos hl, Item.as_subtree_of_not_subtree s a hns]
        simp [ih s j hj' hmin']
      · rw [findSubtreeAux, if_neg hl]
        simp [ih s j hj' hmin']

theorem findSubtreeAux_none (s : Store) (lbl : String) (l : List Item)
    (h : (findSubtreeAux s lbl l).2.2 = none) :
    findSubtreeAux s lbl l = (s, l, none) := by
  induction l generalizing s with
  | nil => rfl
  | cons c cs ih =>
    by_cases hl : (c.label == lbl) = true
    · cases hsub : c.is_subtree
      · rw [findSubtreeAux, if_pos hl, Item.as_subtree_of_not_subtree s c hsub] at h ⊢
        simp at h
        simp [ih s h]
      · obtain ⟨l2, h2, en, rfl⟩ : ∃ l2 h2 en, c = Item.Subtree l2 h2 en := by
          cases c <;> simp_all [Item.is_subtree]
        rw [findSubtreeAux, if_pos hl, Item.as_subtree_subtree] at h
        simp at h
    · rw [findSubtreeAux, if_neg hl] at h ⊢
      simp at h
      simp [ih s h]

/-- C2: insert with `0 ≤ i ≤ len()` and remove with `0 ≤ i < len()` succeed;
an index beyond the contract neither clamps nor no-ops nor partially modifies
the tree, but surfaces as the modelled panic (`none`), halting the call. -/
theorem insert_remove_bounds_fault (t : Tree) (i : Nat) (it : Item) :
    ((t.insert i it).isSome ↔ i ≤ t.len) ∧
    (t.insert i it = none ↔ t.len < i) ∧
    ((t.remove i).isSome ↔ i < t.len) ∧
    (t.remove i = none ↔ t.len ≤ i) := by
  unfold Tree.insert Tree.remove Tree.len
  refine ⟨?_, ?_, ?_, ?_⟩ <;> split <;> simp_all

/-- C6: for every tree, item, and index `i ≤ len()`, inserting at `i` and then
removing at `i` restores the children sequence exactly. -/
theorem insert_remove_roundtrip (t : Tree) (i : Nat) (it : Item) (h : i ≤ t.len) :
    ∃ t2, t.insert i it = some t2 ∧ t2.remove i = some t := by
  have h2 : i ≤ t.children.length := h
  refine ⟨⟨List.insertIdx i it t.children⟩, ?_, ?_⟩
  · rw [Tree.insert, if_pos h2]
  · show Tree.remove ⟨List.insertIdx i it t.children⟩ i = some t
    rw [Tree.remove, if_pos]
    · rw [List.eraseIdx_insertIdx]
    · show i < (List.insertIdx i it t.children).length
      rw [List.length_insertIdx i t.children h2]
      omega

theorem insert_remove_roundtrip_witness :
    ∃ t2, Tree.insert ⟨[Item.Delimiter]⟩ 1 (Item.Leaf "x" ⟨0⟩ true) = some t2 ∧
      Tree.remove t2 1 = some ⟨[Item.Delimiter]⟩ :=
  insert_remove_roundtrip ⟨[Item.Delimiter]⟩ 1 (Item.Leaf "x" ⟨0⟩ true) (by decide)

/-- C7: every delimiter item reports `is_enabled() = false`, is left unchanged
by `disable()` and by the consuming `disabled()`, and its `label()` is the
fixed one-character vertical-bar glyph. -/
theorem delimiter_disabled_fixed_label (it : Item) (h : it.is_delimiter = true) :
    it.is_enabled = false ∧ it.disable = it ∧ it.disabled = it ∧ it.label = "│" := by
  cases it <;>
    simp_all [Item.is_delimiter, Item.is_enabled, Item.disable, Item.disabled, Item.label]

theorem delimiter_disabled_fixed_label_witness :
    Item.Delimiter.is_enabled = false ∧ Item.Delimiter.disable = Item.Delimiter ∧
      Item.Delimiter.disabled = Item.Delimiter ∧ Item.Delimiter.label = "│" :=
  delimiter_disabled_fixed_label Item.Delimiter (by decide)

/-- C9: for each item kind the append form equals the positional form at
`i = len()`, the chainable form applied to a value equals the append form, and
every append reduces to the single `insert` primitive. -/
theorem call_shapes_reduce_to_insert (s : Store) (t : Tree) (lbl : String)
    (cb : Callback) (sub : Tree) (it : Item) :
    t.insert_delimiter t.len = some t.add_delimiter ∧
    t.delimiter = t.add_delimiter ∧
    t.insert_leaf t.len lbl cb = some (t.add_leaf lbl cb) ∧
    t.leaf lbl cb = t.add_leaf lbl cb ∧
    Tree.insert_subtree s t t.len lbl sub =
      ((Tree.add_subtree s t lbl sub).1, some (Tree.add_subtree s t lbl sub).2) ∧
    Tree.subtree s t lbl sub = Tree.add_subtree s t lbl sub ∧
    t.insert t.len it = some (t.add_item it) ∧
    t.item it = t.add_item it ∧
    t.add_delimiter = t.add_item Item.Delimiter ∧
    t.add_leaf lbl cb = t.add_item (Item.Leaf lbl cb true) := by
  refine ⟨?_, rfl, ?_, rfl, ?_, rfl, ?_, rfl, ?_, ?_⟩
  · rw [Tree.insert_delimiter, Tree.add_delimiter_eq]
    exact Tree.insert_len t _
  · rw [Tree.insert_leaf, Tree.add_leaf_eq]
    exact Tree.insert_len t _
  · rw [Tree.add_subtree_eq, Tree.insert_subtree]
    show ((s.alloc sub).1, t.insert t.len (Item.Subtree lbl (s.alloc sub).2 true)) = _
    exact congrArg (fun o => ((s.alloc sub).1, o)) (Tree.insert_len t _)
  · rw [Tree.add_item_eq]
    exact Tree.insert_len t _
  · rw [Tree.add_delimiter_eq, Tree.add_item_eq]
  · rw [Tree.add_leaf_eq, Tree.add_item_eq]

theorem applyAdds_extends (cs : List AddCall) :
    ∀ (s : Store) (t : Tree), ∃ extra,
      (applyAdds (s, t) cs).2.children = t.children ++ extra ∧
      List.Forall₂ MatchesCall cs extra := by
  induction cs with
  | nil => exact fun s t => ⟨[], by simp [applyAdds], List.Forall₂.nil⟩
  | cons c cs ih =>
    intro s t
    obtain ⟨extra, hch, hf⟩ := ih (applyAdd (s, t) c).1 (applyAdd (s, t) c).2
    obtain ⟨itc, hitc, hm⟩ : ∃ itc,
        (applyAdd (s, t) c).2.children = t.children ++ [itc] ∧ MatchesCall c itc := by
      cases c with
      | leafC lbl cb =>
        exact ⟨Item.Leaf lbl cb true, by simp [applyAdd, Tree.add_leaf_eq],
          by simp [MatchesCall]⟩
      | subtreeC lbl sub =>
        exact ⟨Item.Subtree lbl s.cells.length true, by simp [applyAdd, Tree.add_subtree_eq],
          by simp [MatchesCall]⟩
      | delimC =>
        exact ⟨Item.Delimiter, by simp [applyAdd, Tree.add_delimiter_eq],
          by simp [MatchesCall]⟩
    refine ⟨itc :: extra, ?_, List.Forall₂.cons hm hf⟩
    calc (applyAdds (s, t) (c :: cs)).2.children
        = (applyAdds (applyAdd (s, t) c) cs).2.children := rfl
      _ = (applyAdd (s, t) c).2.children ++ extra := hch
      _ = (t.children ++ [itc]) ++ extra := by rw [hitc]
      _ = t.children ++ (itc :: extra) := by simp

/-- C4: starting from `Tree::new()`, after any sequence of `add_leaf` /
`add_subtree` / `add_delimiter` calls, `len()` equals the number of calls and
the children are the corresponding items in exactly call order. -/
theorem add_sequence_order (s : Store) (cs : List AddCall) :
    (applyAdds (s, Tree.new) cs).2.len = cs.length ∧
    List.Forall₂ MatchesCall cs (applyAdds (s, Tree.new) cs).2.children := by
  obtain ⟨extra, hch, hf⟩ := applyAdds_extends cs s Tree.new
  have hch2 : (applyAdds (s, Tree.new) cs).2.children = extra := by
    simpa [Tree.new] using hch
  constructor
  · show (applyAdds (s, Tree.new) cs).2.children.length = cs.length
    rw [hch2]
    exact (List.Forall₂.length_eq hf).symm
  · rw [hch2]
    exact hf

/-- C5: `find_item` and `find_position` select the first child in display
order whose `label()` equals the query (first match wins under duplicates);
with children labelled File, Edit, View, the position of Edit is 1 and Help is
absent. -/
theorem find_first_match (t : Tree) (lbl : String) :
    (Tree.find_position t lbl = none ↔ ∀ c ∈ t.children, c.label ≠ lbl) ∧
    (∀ j, Tree.find_position t lbl = some j →
      ∃ c, t.children[j]? = some c ∧ c.label = lbl ∧
        ∀ k, k < j → ∀ c2, t.children[k]? = some c2 → c2.label ≠ lbl) ∧
    (Tree.find_item t lbl = (Tree.find_position t lbl).bind fun j => t.children[j]?) ∧
    (∀ cb1 cb2 cb3,
      Tree.find_position
        ⟨[Item.Leaf "File" cb1 true, Item.Leaf "Edit" cb2 true, Item.Leaf "View" cb3 true]⟩
        "Edit" = some 1 ∧
      Tree.find_position
        ⟨[Item.Leaf "File" cb1 true, Item.Leaf "Edit" cb2 true, Item.Leaf "View" cb3 true]⟩
        "Help" = none) := by
  refine ⟨?_, ?_, ?_, ?_⟩
  · rw [Tree.find_position, List.findIdx?_eq_none_iff]
    constructor
    · intro hall c hc
      simpa using hall c hc
    · intro hall c hc
      simpa using hall c hc
  · intro j hj
    obtain ⟨c, h1, h2, h3⟩ := findIdx?_some_first _ _ _ hj
    refine ⟨c, h1, by simpa using h2, ?_⟩
    intro k hk c2 hk2
    simpa using h3 k hk c2 hk2
  · exact find?_eq_findIdx?_bind _ _
  · intro cb1 cb2 cb3
    obtain ⟨i1⟩ := cb1
    obtain ⟨i2⟩ := cb2
    obtain ⟨i3⟩ := cb3
    exact ⟨by simp [Tree.find_position, List.findIdx?_cons, Item.label],
      by simp [Tree.find_position, List.findIdx?_cons, Item.label]⟩

theorem find_first_match_witness :
    ∃ c, (Tree.mk [Item.Leaf "File" ⟨0⟩ true, Item.Leaf "Edit" ⟨1⟩ true,
        Item.Leaf "View" ⟨2⟩ true]).children[1]? = some c ∧ c.label = "Edit" ∧
      ∀ k, k < 1 → ∀ c2, (Tree.mk [Item.Leaf "File" ⟨0⟩ true, Item.Leaf "Edit" ⟨1⟩ true,
        Item.Leaf "View" ⟨2⟩ true]).children[k]? = some c2 → c2.label ≠ "Edit" :=
  (find_first_match (Tree.mk [Item.Leaf "File" ⟨0⟩ true, Item.Leaf "Edit" ⟨1⟩ true,
    Item.Leaf "View" ⟨2⟩ true]) "Edit").2.1 1 (by decide)

/-- C10: label lookups compare against `Item::label()`, and a delimiter's
label is the vertical-bar glyph, so delimiters participate in label matching:
searching for the glyph finds the first delimiter (or earlier item whose stored
label is the glyph) instead of always returning absence. -/
theorem delimiter_label_matching (t : Tree) :
    (∀ c : Item, c.label = "│" ↔
      (c = Item.Delimiter ∨ (∃ cb en, c = Item.Leaf "│" cb en) ∨
        ∃ h en, c = Item.Subtree "│" h en)) ∧
    (∀ j, t.children[j]? = some Item.Delimiter →
      (∀ k, k < j → ∀ c2, t.children[k]? = some c2 → c2.label ≠ "│") →
      Tree.find_position t "│" = some j ∧ Tree.find_item t "│" = some Item.Delimiter) ∧
    (∀ cb, Tree.find_position ⟨[Item.Leaf "File" cb true, Item.Delimiter]⟩ "│" = some 1) := by
  refine ⟨?_, ?_, ?_⟩
  · intro c
    cases c with
    | Leaf lbl cb en =>
      simp only [Item.label]
      constructor
      · intro hl
        exact Or.inr (Or.inl ⟨cb, en, by rw [hl]⟩)
      · rintro (hd | ⟨cb2, en2, hleaf⟩ | ⟨h2, en2, hsub⟩)
        · exact absurd hd (by simp)
        · injection hleaf with h1 h2 h3
        · exact absurd hsub (by simp)
    | Subtree lbl h en =>
      simp only [Item.label]
      constructor
      · intro hl
        exact Or.inr (Or.inr ⟨h, en, by rw [hl]⟩)
      · rintro (hd | ⟨cb2, en2, hleaf⟩ | ⟨h2, en2, hsub⟩)
        · exact absurd hd (by simp)
        · exact absurd hleaf (by simp)
        · injection hsub with h1 h2 h3
    | Delimiter => simp [Item.label]
  · intro j hj hmin
    have hpos : Tree.find_position t "│" = some j := by
      refine findIdx?_first _ _ j Item.Delimiter hj (by decide) ?_
      intro k hk c2 hk2
      have := hmin k hk c2 hk2
      simpa using this
    refine ⟨hpos, ?_⟩
    rw [Tree.find_item, find?_eq_findIdx?_bind]
    show (Tree.find_position t "│").bind _ = _
    rw [hpos]
    simpa using hj
  · intro cb
    obtain ⟨i1⟩ := cb
    simp [Tree.find_position, List.findIdx?_cons, Item.label]

theorem delimiter_label_matching_witness :
    Tree.find_position ⟨[Item.Leaf "File" ⟨0⟩ true, Item.Delimiter]⟩ "│" = some 1 ∧
      Tree.find_item ⟨[Item.Leaf "File" ⟨0⟩ true, Item.Delimiter]⟩ "│" =
        some Item.Delimiter :=
  (delimiter_label_matching ⟨[Item.Leaf "File" ⟨0⟩ true, Item.Delimiter]⟩).2.1 1
    (by decide)
    (by
      intro k hk c2 hc2
      obtain rfl : k = 0 := by omega
      simp only [List.getElem?_cons_zero, Option.some.injEq] at hc2
      subst hc2
      decide)

/-- C8: lookup misses never fault: `get_mut(i)` is `none` exactly when
`i ≥ len()`, `get_subtree(i)` is `none` exactly when `i` is out of range or the
item there is not a subtree — and then changes neither store nor tree — and the
label searches return `none` exactly when no child matches, `find_subtree`
likewise leaving store and tree untouched on a miss. -/
theorem lookup_miss_total (s : Store) (t : Tree) (i : Nat) (lbl : String) :
    (Tree.get_mut t i = none ↔ t.len ≤ i) ∧
    ((Tree.get_subtree s t i).2.2 = none ↔
      (t.len ≤ i ∨ ∃ c, t.children[i]? = some c ∧ c.is_subtree = false)) ∧
    ((Tree.get_subtree s t i).2.2 = none → Tree.get_subtree s t i = (s, t, none)) ∧
    (Tree.find_item t lbl = none ↔ ∀ c ∈ t.children, c.label ≠ lbl) ∧
    (Tree.find_position t lbl = none ↔ ∀ c ∈ t.children, c.label ≠ lbl) ∧
    ((Tree.find_subtree s t lbl).2.2 = none → Tree.find_subtree s t lbl = (s, t, none)) := by
  refine ⟨?_, ?_, ?_, ?_, ?_, ?_⟩
  · rw [Tree.get_mut]
    show t.children[i]? = none ↔ t.children.length ≤ i
    exact List.getElem?_eq_none_iff
  · cases hgi : t.children[i]? with
    | none =>
      have hlen : t.children.length ≤ i := List.getElem?_eq_none_iff.mp hgi
      have hres : Tree.get_subtree s t i = (s, t, none) := by
        simp only [Tree.get_subtree, hgi]
      rw [hres]
      exact iff_of_true rfl (Or.inl hlen)
    | some c =>
      have hlt : i < t.children.length := by
        rcases Nat.lt_or_ge i t.children.length with hlt | hge
        · exact hlt
        · rw [List.getElem?_eq_none hge] at hgi; cases hgi
      cases hsub : c.is_subtree with
      | false =>
        have hres : Tree.get_subtree s t i = (s, ⟨t.children.set i c⟩, none) := by
          simp only [Tree.get_subtree, hgi, Item.as_subtree_of_not_subtree s c hsub]
        rw [hres]
        exact iff_of_true rfl (Or.inr ⟨c, rfl, hsub⟩)
      | true =>
        obtain ⟨l2, h2, en, rfl⟩ : ∃ l2 h2 en, c = Item.Subtree l2 h2 en := by
          cases c <;> simp_all [Item.is_subtree]
        have hres : (Tree.get_subtree s t i).2.2 = some (s.makeMut h2).2 := by
          simp only [Tree.get_subtree, hgi, Item.as_subtree_subtree]
        refine iff_of_false (by rw [hres]; simp) ?_
        rintro (hge | ⟨c2, hc2, hns⟩)
        · have hge2 : t.children.length ≤ i := hge
          omega
        · injection hc2 with hc2
          rw [← hc2] at hns
          simp [Item.is_subtree] at hns
  · intro hnone
    cases hgi : t.children[i]? with
    | none => simp only [Tree.get_subtree, hgi]
    | some c =>
      cases hsub : c.is_subtree with
      | false =>
        simp only [Tree.get_subtree, hgi, Item.as_subtree_of_not_subtree s c hsub]
        rw [set_getElem?_self t.children i c hgi]
      | true =>
        obtain ⟨l2, h2, en, rfl⟩ : ∃ l2 h2 en, c = Item.Subtree l2 h2 en := by
          cases c <;> simp_all [Item.is_subtree]
        simp only [Tree.get_subtree, hgi, Item.as_subtree_subtree] at hnone
        cases hnone
  · rw [Tree.find_item, List.find?_eq_none]
    constructor
    · intro hall c hc
      simpa using hall c hc
    · intro hall c hc
      simpa using hall c hc
  · rw [Tree.find_position, List.findIdx?_eq_none_iff]
    constructor
    · intro hall c hc
      simpa using hall c hc
    · intro hall c hc
      simpa using hall c hc
  · intro hnone
    have haux : (findSubtreeAux s lbl t.children).2.2 = none := hnone
    rw [Tree.find_subtree, findSubtreeAux_none s lbl t.children haux]

theorem lookup_miss_total_witness :
    Tree.get_subtree ⟨[]⟩ ⟨[Item.Leaf "a" ⟨0⟩ true]⟩ 0 =
        (⟨[]⟩, ⟨[Item.Leaf "a" ⟨0⟩ true]⟩, none) ∧
      Tree.find_subtree ⟨[]⟩ ⟨[Item.Leaf "a" ⟨0⟩ true]⟩ "a" =
        (⟨[]⟩, ⟨[Item.Leaf "a" ⟨0⟩ true]⟩, none) :=
  ⟨(lookup_miss_total ⟨[]⟩ ⟨[Item.Leaf "a" ⟨0⟩ true]⟩ 0 "a").2.2.1 (by decide),
    (lookup_miss_total ⟨[]⟩ ⟨[Item.Leaf "a" ⟨0⟩ true]⟩ 0 "a").2.2.2.2.2 (by decide)⟩

/-- C3: `find_subtree(label)` yields (through the copy-on-write access of
`as_subtree`, i.e. exactly as `get_subtree` at that position) the nested tree
of the first child that both matches the label and is a subtree, skipping
non-matching items and matching non-subtrees; when no child is both, it
returns absence and changes nothing — in particular when the only child with
the label is a leaf. -/
theorem find_subtree_first_matching_subtree (s : Store) (t : Tree) (lbl : String) :
    ((∀ c ∈ t.children, ¬(c.label = lbl ∧ c.is_subtree = true)) →
      Tree.find_subtree s t lbl = (s, t, none)) ∧
    (∀ j c, t.children[j]? = some c → c.label = lbl → c.is_subtree = true →
      (∀ k, k < j → ∀ c2, t.children[k]? = some c2 →
        ¬(c2.label = lbl ∧ c2.is_subtree = true)) →
      Tree.find_subtree s t lbl = Tree.get_subtree s t j) ∧
    (∀ cb, Tree.find_subtree s ⟨[Item.Leaf "Edit" cb true]⟩ "Edit" =
      (s, ⟨[Item.Leaf "Edit" cb true]⟩, none)) := by
  refine ⟨?_, ?_, ?_⟩
  · intro hmiss
    rw [Tree.find_subtree, findSubtreeAux_miss s lbl t.children hmiss]
  · intro j c hj hc hsub hmin
    rw [Tree.find_subtree, findSubtreeAux_hit s lbl t.children j c hj hc hsub hmin]
    simp only [Tree.get_subtree, hj]
  · intro cb
    have hmiss : ∀ c ∈ [Item.Leaf "Edit" cb true], ¬(c.label = "Edit" ∧ c.is_subtree = true) := by
      intro c hc
      simp only [List.mem_singleton] at hc
      subst hc
      simp [Item.is_subtree]
    rw [Tree.find_subtree, findSubtreeAux_miss s "Edit" _ hmiss]

theorem find_subtree_first_matching_subtree_witness :
    Tree.find_subtree ⟨[⟨1, ⟨[]⟩⟩]⟩
        ⟨[Item.Leaf "x" ⟨0⟩ true, Item.Subtree "Edit" 0 true]⟩ "Edit" =
      Tree.get_subtree ⟨[⟨1, ⟨[]⟩⟩]⟩
        ⟨[Item.Leaf "x" ⟨0⟩ true, Item.Subtree "Edit" 0 true]⟩ 1 :=
  (find_subtree_first_matching_subtree ⟨[⟨1, ⟨[]⟩⟩]⟩
    ⟨[Item.Leaf "x" ⟨0⟩ true, Item.Subtree "Edit" 0 true]⟩ "Edit").2.1 1
    (Item.Subtree "Edit" 0 true) (by decide) (by decide) (by decide)
    (by
      intro k hk c2 hc2
      obtain rfl : k = 0 := by omega
      simp only [List.getElem?_cons_zero, Option.some.injEq] at hc2
      subst hc2
      decide)

/-- C1: copy-on-write contract of `as_subtree` (hence `get_subtree` /
`find_subtree`): when the nested tree has more than one owner, requesting
mutable access allocates a fresh private cell with the same content, rebinds
this item to it, and returns a handle to the copy, so every mutation written
through that handle leaves the original cell — every other holder's view —
unchanged, while being visible through the copy; with a single owner no fork
happens and nothing is allocated or changed; the read-only `label()` accessor
takes no store at all and returns the stored label unchanged. -/
theorem copy_on_write_fork (s : Store) (t : Tree) (i : Nat) (lbl : String)
    (h : Handle) (en : Bool)
    (hget : t.children[i]? = some (Item.Subtree lbl h en))
    (hlive : 1 ≤ s.count h) :
    (2 ≤ s.count h →
      (Tree.get_subtree s t i).2.2 = some s.cells.length ∧
      h ≠ s.cells.length ∧
      (Tree.get_subtree s t i).1.cells.length = s.cells.length + 1 ∧
      (Tree.get_subtree s t i).1.treeAt h = s.treeAt h ∧
      (Tree.get_subtree s t i).1.treeAt s.cells.length = s.treeAt h ∧
      (Tree.get_subtree s t i).2.1 =
        ⟨t.children.set i (Item.Subtree lbl s.cells.length en)⟩ ∧
      (∀ u, ((Tree.get_subtree s t i).1.setTree s.cells.length u).treeAt h = s.treeAt h) ∧
      (∀ u, ((Tree.get_subtree s t i).1.setTree s.cells.length u).treeAt s.cells.length
        = u)) ∧
    (s.count h = 1 → Tree.get_subtree s t i = (s, t, some h)) ∧
    (Item.Subtree lbl h en).label = lbl := by
  have hlt : h < s.cells.length := Store.lt_length_of_count_pos s h (by omega)
  have hres : Tree.get_subtree s t i =
      ((s.makeMut h).1, ⟨t.children.set i (Item.Subtree lbl (s.makeMut h).2 en)⟩,
        some (s.makeMut h).2) := by
    simp only [Tree.get_subtree, hget, Item.as_subtree_subtree]
  refine ⟨?_, ?_, rfl⟩
  · intro hshared
    have hne1 : s.count h ≠ 1 := by omega
    obtain ⟨hh, hlen, hold, hnew⟩ := Store.makeMut_shared s h hne1 hlt
    have hfresh : h ≠ s.cells.length := Nat.ne_of_lt hlt
    rw [hres]
    refine ⟨by rw [hh], hfresh, ?_, hold, hnew, by rw [hh], ?_, ?_⟩
    · show (s.makeMut h).1.cells.length = s.cells.length + 1
      exact hlen
    · intro u
      show ((s.makeMut h).1.setTree s.cells.length u).treeAt h = s.treeAt h
      rw [Store.treeAt_setTree_ne _ _ _ _ (Ne.symm hfresh)]
      exact hold
    · intro u
      show ((s.makeMut h).1.setTree s.cells.length u).treeAt s.cells.length = u
      refine Store.treeAt_setTree_self _ _ _ ?_
      calc s.cells.length < s.cells.length + 1 := Nat.lt_succ_self _
        _ = (s.makeMut h).1.cells.length := hlen.symm
  · intro hone
    rw [hres, Store.makeMut_unique s h hone]
    show (s, ⟨t.children.set i (Item.Subtree lbl h en)⟩, some h) = (s, t, some h)
    rw [set_getElem?_self t.children i _ hget]

theorem copy_on_write_fork_witness :
    (Tree.get_subtree ⟨[⟨2, ⟨[Item.Leaf "a" ⟨0⟩ true]⟩⟩]⟩
        ⟨[Item.Subtree "sub" 0 true]⟩ 0).2.2 = some 1 ∧
    ((Tree.get_subtree ⟨[⟨2, ⟨[Item.Leaf "a" ⟨0⟩ true]⟩⟩]⟩
          ⟨[Item.Subtree "sub" 0 true]⟩ 0).1.setTree 1
        ⟨[Item.Leaf "a" ⟨0⟩ true, Item.Leaf "b" ⟨1⟩ true]⟩).treeAt 0 =
      ⟨[Item.Leaf "a" ⟨0⟩ true]⟩ := by
  have hmain := copy_on_write_fork ⟨[⟨2, ⟨[Item.Leaf "a" ⟨0⟩ true]⟩⟩]⟩
    ⟨[Item.Subtree "sub" 0 true]⟩ 0 "sub" 0 true (by decide) (by decide)
  obtain ⟨hsh, _, _⟩ := hmain
  obtain ⟨h1, _, _, _, _, _, h7, _⟩ := hsh (by decide)
  exact ⟨h1, h7 ⟨[Item.Leaf "a" ⟨0⟩ true, Item.Leaf "b" ⟨1⟩ true]⟩⟩

end Menu
